import Mathlib

/-!
Verification of the path-transformation core of `google-drive-downloader`
(`pkg/transform`, its caller in `cmd/main.go`, and the regex facility it
relies on).

Modelling conventions:
* Go strings are Lean `String`s; character-level work happens on `String.data`.
* `strings.Contains` and `strings.Replace(s, old, new, -1)` are modelled by
  `containsSub` / `replaceAll` below.
* Go's `regexp` package is modelled by a small abstract syntax `RE` together
  with a backtracking matcher that implements the leftmost-first ("first match
  anywhere, first alternative preferred, greedy quantifiers") semantics that
  `regexp.FindStringSubmatch` exposes, and a compiler `regexpCompile` for the
  syntactic fragment the repository exercises (literals, escapes, character
  classes, `.`, `*`, `+`, `?`, named/unnamed groups, `$`).
* Go map iteration order is unspecified, so `PathTransformer.Transform` takes
  the iteration order over the captures map as an explicit `order` argument;
  a faithful order is any permutation of the capture keys (`validOrder`).
-/

namespace GDD

/-- Go `strings.Contains s sub` : substring containment. -/
def containsSub : List Char → List Char → Bool
  | [], sub => sub.isEmpty
  | c :: tl, sub => sub.isPrefixOf (c :: tl) || containsSub tl sub

/-- `strings.Contains` on Go strings. -/
def stringsContains (s sub : String) : Bool :=
  containsSub s.data sub.data

/-- Worker for `replaceAll`; structural recursion on `fuel`, which always
suffices when `s.length ≤ fuel` because every step consumes at least one
character of `s`. -/
def replaceAllF : Nat → List Char → List Char → List Char → List Char
  | 0, s, _, _ => s
  | fuel + 1, s, old, new =>
    match s with
    | [] => []
    | c :: tl =>
      if old ≠ [] ∧ old.isPrefixOf (c :: tl) then
        new ++ replaceAllF fuel ((c :: tl).drop old.length) old new
      else
        c :: replaceAllF fuel tl old new

/-- Go `strings.Replace s old new (-1)`: replace all non-overlapping
occurrences of `old`, scanning left to right; the inserted `new` text is not
rescanned.  (The repository only calls this with non-empty `old`; with an
empty `old` this model returns `s` unchanged.) -/
def replaceAll (s old new : List Char) : List Char :=
  replaceAllF s.length s old new

/-- `strings.Replace` with count `-1` on Go strings. -/
def stringsReplace (s old new : String) : String :=
  ⟨replaceAll s.data old.data new.data⟩

/-! ### The regex engine (model of Go's `regexp` package) -/

/-- Abstract syntax of the regular-expression fragment used by the tool.
`cls neg cs` is a character class (`[...]` / `[^...]`), `group i r` a
capturing group with index `i`, `eol` the `$` end-of-text anchor. -/
inductive RE where
  | eps
  | lit (c : Char)
  | cls (neg : Bool) (cs : List Char)
  | dot
  | seq (a b : RE)
  | alt (a b : RE)
  | star (r : RE)
  | group (idx : Nat) (r : RE)
  | eol
deriving Repr, DecidableEq

/-- Structural size of a regex, used to budget the matcher's fuel. -/
def RE.size : RE → Nat
  | .eps => 1
  | .lit _ => 1
  | .cls _ _ => 1
  | .dot => 1
  | .seq a b => a.size + b.size + 1
  | .alt a b => a.size + b.size + 1
  | .star r => r.size + 1
  | .group _ r => r.size + 1
  | .eol => 1

/-- Capture environment: group index ↦ captured text.  Entries are consed,
so `List.lookup` returns the most recent (Go: last repetition wins). -/
abbrev Caps := List (Nat × List Char)

/-- Does character `c` satisfy the class?  A negated Go class matches any
character (including newline) that is not listed. -/
def clsMatches (neg : Bool) (cs : List Char) (c : Char) : Bool :=
  if neg then !(cs.contains c) else cs.contains c

/-- Backtracking matcher: all ways `r` can match a prefix of `s`, as pairs
(remaining suffix, captures), in Go's preference order (first alternative
first, greedy quantifiers longest-first).  `fuel` bounds recursion depth;
`runFuel` below always provides enough. -/
def mtch : Nat → RE → List Char → Caps → List (List Char × Caps)
  | 0, _, _, _ => []
  | fuel + 1, r, s, k =>
    match r with
    | .eps => [(s, k)]
    | .lit c =>
      match s with
      | [] => []
      | x :: xs => if x = c then [(xs, k)] else []
    | .cls neg cs =>
      match s with
      | [] => []
      | x :: xs => if clsMatches neg cs x then [(xs, k)] else []
    | .dot =>
      match s with
      | [] => []
      | x :: xs => if x = '\n' then [] else [(xs, k)]
    | .seq a b => (mtch fuel a s k).flatMap (fun p => mtch fuel b p.1 p.2)
    | .alt a b => mtch fuel a s k ++ mtch fuel b s k
    | .star rr =>
      ((mtch fuel rr s k).filter (fun p => p.1.length < s.length)).flatMap
        (fun p => mtch fuel (.star rr) p.1 p.2) ++ [(s, k)]
    | .group i rr =>
      (mtch fuel rr s k).map (fun p => (p.1, (i, s.take (s.length - p.1.length)) :: p.2))
    | .eol =>
      match s with
      | [] => [(s, k)]
      | _ => []

/-- Fuel sufficient for `mtch` on regex `r` and input `s`. -/
def runFuel (r : RE) (s : List Char) : Nat :=
  (r.size + 2) * (s.length + 2)

/-- The preferred match of `r` at the start of `s`, if any. -/
def matchHere (r : RE) (s : List Char) : Option (List Char × Caps) :=
  (mtch (runFuel r s) r s []).head?

/-- Leftmost search: try each start position in order, returning the suffix
where the first match starts together with the match data. -/
def findSuffix (r : RE) (s : List Char) : Option (List Char × (List Char × Caps)) :=
  match s, matchHere r s with
  | _, some res => some (s, res)
  | [], none => none
  | _ :: tl, none => findSuffix r tl

/-- A compiled regular expression: the group-name table (index 0 is the
whole match, whose name is `""`; unnamed groups also read `""`) plus the
syntax tree with group indices assigned in order of opening parentheses. -/
structure Regexp where
  names : List String
  ast : RE
deriving Repr, DecidableEq

/-- Go `(*Regexp).SubexpNames`. -/
def Regexp.SubexpNames (re : Regexp) : List String :=
  re.names

/-- Number of capturing groups. -/
def Regexp.numGroups (re : Regexp) : Nat :=
  re.names.length - 1

/-- Go `(*Regexp).FindStringSubmatch`: leftmost-first match anywhere in the
string; entry 0 is the whole match, entry `i` the text of group `i`, with a
group that did not participate in the match reported as `""`. -/
def Regexp.FindStringSubmatch (re : Regexp) (s : String) : Option (List String) :=
  match findSuffix re.ast s.data with
  | none => none
  | some (suf, rem, caps) =>
    some (String.mk (suf.take (suf.length - rem.length)) ::
      (List.range re.numGroups).map (fun j => String.mk ((caps.lookup (j + 1)).getD [])))

/-! ### The regex compiler (model of `regexp.Compile` on the fragment used) -/

/-- Characters allowed in a Go capture-group name. -/
def isWordChar (c : Char) : Bool :=
  c.isAlphanum || c = '_'

/-- Parse a capture-group name, consuming up to and including `>`. -/
def parseGroupName (s : List Char) (acc : List Char) : Except String (String × List Char) :=
  match s with
  | [] => .error "invalid named capture"
  | '>' :: rest =>
    if acc.isEmpty then .error "invalid named capture"
    else .ok (String.mk acc.reverse, rest)
  | c :: rest =>
    if isWordChar c then parseGroupName rest (c :: acc)
    else .error "invalid named capture"

/-- Parse the body of a character class (after `[` and the optional `^`),
consuming up to and including `]`.  Character ranges are outside the
modelled fragment and rejected, except for a literal `-` first or last. -/
def parseClsItems (s : List Char) (acc : List Char) : Except String (List Char × List Char) :=
  match s with
  | [] => .error "missing closing bracket"
  | ']' :: rest =>
    if acc.isEmpty then .error "missing argument to character class"
    else .ok (acc.reverse, rest)
  | '\\' :: c :: rest =>
    if c.isAlphanum then .error "escape sequences not supported by this model"
    else parseClsItems rest (c :: acc)
  | '-' :: rest =>
    if acc.isEmpty || rest.head? = some ']' then parseClsItems rest ('-' :: acc)
    else .error "character ranges not supported by this model"
  | c :: rest => parseClsItems rest (c :: acc)

/-- Attach a postfix quantifier to the atom just parsed, if one follows.
`r+` is `r` followed by `r*`; `r?` prefers the one-occurrence branch,
matching Go's greedy semantics. -/
def applyPost (r : RE) (s : List Char) : RE × List Char :=
  match s with
  | '*' :: rest => (.star r, rest)
  | '+' :: rest => (.seq r (.star r), rest)
  | '?' :: rest => (.alt r .eps, rest)
  | _ => (r, s)

/-- Recursive-descent parse of a concatenation, stopping at `)` or the end.
`gi` is the next capture-group index, `names` the group names seen so far in
opening-parenthesis order (`""` for an unnamed group), `acc` the regex built
so far.  Syntax outside the modelled fragment is rejected with an error, as
`regexp.Compile` rejects genuinely invalid syntax. -/
def parseSeqR : Nat → List Char → Nat → List String → RE →
    Except String (RE × List Char × Nat × List String)
  | 0, _, _, _, _ => .error "pattern too long"
  | fuel + 1, s, gi, names, acc =>
    match s with
    | [] => .ok (acc, [], gi, names)
    | ')' :: _ => .ok (acc, s, gi, names)
    | '|' :: _ => .error "alternation not supported by this model"
    | '^' :: _ => .error "start anchor not supported by this model"
    | '*' :: _ => .error "missing argument to repetition operator"
    | '+' :: _ => .error "missing argument to repetition operator"
    | '?' :: _ => .error "missing argument to repetition operator"
    | '\x7b' :: _ => .error "counted repetition not supported by this model"
    | '(' :: more =>
      match more with
      | '?' :: 'P' :: '<' :: rest =>
        (match parseGroupName rest [] with
         | .error e => .error e
         | .ok (name, rest2) =>
           if names.contains name then .error "duplicate capture group name"
           else
             match parseSeqR fuel rest2 (gi + 1) (names ++ [name]) .eps with
             | .error e => .error e
             | .ok (inner, rem, gi2, names2) =>
               match rem with
               | ')' :: rem2 =>
                 let pr := applyPost (.group gi inner) rem2
                 parseSeqR fuel pr.2 gi2 names2 (.seq acc pr.1)
               | _ => .error "missing closing parenthesis")
      | '?' :: ':' :: rest =>
        (match parseSeqR fuel rest gi names .eps with
         | .error e => .error e
         | .ok (inner, rem, gi2, names2) =>
           match rem with
           | ')' :: rem2 =>
             let pr := applyPost inner rem2
             parseSeqR fuel pr.2 gi2 names2 (.seq acc pr.1)
           | _ => .error "missing closing parenthesis")
      | '?' :: _ => .error "group flags not supported by this model"
      | _ =>
        (match parseSeqR fuel more (gi + 1) (names ++ [""]) .eps with
         | .error e => .error e
         | .ok (inner, rem, gi2, names2) =>
           match rem with
           | ')' :: rem2 =>
             let pr := applyPost (.group gi inner) rem2
             parseSeqR fuel pr.2 gi2 names2 (.seq acc pr.1)
           | _ => .error "missing closing parenthesis")
    | '[' :: more =>
      (match
        (match more with
         | '^' :: rest =>
           (parseClsItems rest []).map (fun q : List Char × List Char => (true, q.1, q.2))
         | _ =>
           (parseClsItems more []).map (fun q : List Char × List Char => (false, q.1, q.2))) with
       | .error e => .error e
       | .ok (neg, items, rest) =>
         let pr := applyPost (.cls neg items) rest
         parseSeqR fuel pr.2 gi names (.seq acc pr.1))
    | '\\' :: more =>
      (match more with
       | [] => .error "trailing backslash at end of expression"
       | c :: rest =>
         if c.isAlphanum then .error "escape sequences not supported by this model"
         else
           let pr := applyPost (.lit c) rest
           parseSeqR fuel pr.2 gi names (.seq acc pr.1))
    | '.' :: rest =>
      let pr := applyPost .dot rest
      parseSeqR fuel pr.2 gi names (.seq acc pr.1)
    | '$' :: rest =>
      let pr := applyPost .eol rest
      parseSeqR fuel pr.2 gi names (.seq acc pr.1)
    | c :: rest =>
      let pr := applyPost (.lit c) rest
      parseSeqR fuel pr.2 gi names (.seq acc pr.1)

/-- Model of Go `regexp.Compile` on the syntactic fragment the repository
uses.  On success, `names` lists `""` (the whole match) followed by the
group names in opening-parenthesis order, exactly as `SubexpNames` does. -/
def regexpCompile (pattern : String) : Except String Regexp :=
  match parseSeqR (pattern.length + 2) pattern.data 1 [] .eps with
  | .error e => .error e
  | .ok (r, rem, _, names) =>
    match rem with
    | [] => .ok ⟨"" :: names, r⟩
    | _ => .error "unexpected closing parenthesis"

/-! ### The path transformer (`pkg/transform/path.go`) -/

/-- Error kinds of `NewPathTransformer` (the Go code reports them as
distinguishable `fmt.Errorf` messages). -/
inductive CompileError where
  | invalidArguments
  | invalidPattern (msg : String)
  | templateUnused
deriving Repr, DecidableEq

/-- Error kinds of `Transform`, carrying the diagnostic payload the Go
code formats into the error message. -/
inductive TransformError where
  | noMatch (path : String)
  | unresolvedPlaceholder (result : String)
deriving Repr, DecidableEq

/-- `PathTransformer` from `pkg/transform`: a compiled pattern and the
format (template) string. -/
structure PathTransformer where
  pattern : Regexp
  format : String
deriving Repr, DecidableEq

/-- The text `"${" + name + "}"` that the Go code builds for a capture. -/
def placeholderOf (name : String) : String :=
  "$" ++ "\x7b" ++ name ++ "\x7d"

/-- `NewPathTransformer` from `pkg/transform`: reject empty arguments,
compile the pattern, then require that the format mentions `${name}` for at
least one named group of the pattern. -/
def NewPathTransformer (pattern format : String) : Except CompileError PathTransformer :=
  if pattern = "" || format = "" then .error .invalidArguments
  else
    match regexpCompile pattern with
    | .error msg => .error (.invalidPattern msg)
    | .ok re =>
      if re.SubexpNames.any (fun name => name ≠ "" && stringsContains format (placeholderOf name))
      then .ok ⟨re, format⟩
      else .error .templateUnused

/-- One insertion into the Go `captures` map: the mapping from keys to
values (later assignments overwrite); iteration order is supplied
separately to `Transform`. -/
def mapInsert (m : List (String × String)) (k v : String) : List (String × String) :=
  (m.filter (fun p => p.1 ≠ k)) ++ [(k, v)]

/-- One iteration of the capture-collection loop in `Transform`: skip
index 0 (the whole match) and unnamed groups, insert the rest. -/
def capStep (acc : List (String × String)) (p : Nat × String × String) :
    List (String × String) :=
  if p.1 ≠ 0 ∧ p.2.1 ≠ "" then mapInsert acc p.2.1 p.2.2 else acc

/-- The `captures` map `Transform` builds: for every index `i ≠ 0` whose
group name is not `""`, map the name to `match[i]`. -/
def buildCaptures (names m : List String) : List (String × String) :=
  ((names.zip m).enum).foldl capStep []

/-- The substitution loop of `Transform`: for each capture name, in the map
iteration order `order`, replace all occurrences of `${name}` by the
captured value. -/
def substituteLoop (captures : List (String × String)) (order : List String)
    (format : String) : String :=
  order.foldl
    (fun r n =>
      match captures.lookup n with
      | some v => stringsReplace r (placeholderOf n) v
      | none => r)
    format

/-- `Transform` from `pkg/transform`.  `order` is the iteration order of
the Go `captures` map (unspecified by Go; a faithful order is any
permutation of the capture names, see `validOrder`). -/
def PathTransformer.Transform (t : PathTransformer) (order : List String)
    (path : String) : Except TransformError String :=
  match t.pattern.FindStringSubmatch path with
  | none => .error (.noMatch path)
  | some m =>
    let captures := buildCaptures t.pattern.SubexpNames m
    let result := substituteLoop captures order t.format
    if stringsContains result "$\x7b" && stringsContains result "\x7d" then
      .error (.unresolvedPlaceholder result)
    else
      .ok result

/-- The captures map `Transform` computes on `path` (empty when the
pattern does not match). -/
def capturesOf (t : PathTransformer) (path : String) : List (String × String) :=
  match t.pattern.FindStringSubmatch path with
  | none => []
  | some m => buildCaptures t.pattern.SubexpNames m

/-- An `order` argument faithfully models a Go map iteration when it is a
permutation of the keys of the captures map. -/
def validOrder (t : PathTransformer) (path : String) (order : List String) : Prop :=
  order.Perm ((capturesOf t path).map Prod.fst)

instance (t : PathTransformer) (path : String) (order : List String) :
    Decidable (validOrder t path order) :=
  List.decidablePerm order ((capturesOf t path).map Prod.fst)

/-! ### The caller (`cmd/main.go`) -/

/-- `FileInfo` from `pkg/drive`. -/
structure FileInfo where
  ID : String
  Name : String
  Path : String
  MimeType : String
  ModifiedTime : String
deriving Repr, DecidableEq

/-- The per-file loop of `cmd/main.go` (lines 119–135): each file's path is
replaced by the transformed path when `Transform` succeeds; on a transform
error the loop logs a warning and `continue`s, leaving that file unchanged
and processing the rest. -/
def transformPaths (t : PathTransformer) (order : List String)
    (files : List FileInfo) : List FileInfo :=
  files.map (fun f =>
    match t.Transform order f.Path with
    | .ok newPath => { f with Path := newPath }
    | .error _ => f)

/-! ### Auxiliary notions used by the theorems -/

instance {e a : Type} [DecidableEq e] [DecidableEq a] : DecidableEq (Except e a) := fun x y =>
  match x, y with
  | .ok u, .ok v => if h : u = v then .isTrue (by rw [h]) else .isFalse (by simp [h])
  | .error u, .error v => if h : u = v then .isTrue (by rw [h]) else .isFalse (by simp [h])
  | .ok _, .error _ => .isFalse (by simp)
  | .error _, .ok _ => .isFalse (by simp)

/-- Following the specification's wording (not the code): the string holds
"placeholder-shaped text", i.e. an occurrence of `${` followed later in the
string by `}`.  Used to compare the spec's description of the
unresolved-placeholder check with the code's actual check. -/
def placeholderShaped : List Char → Bool
  | [] => false
  | c :: tl =>
    (['$', '\x7b'].isPrefixOf (c :: tl) && tl.any (fun d => d = '\x7d')) || placeholderShaped tl

/-- A format-string token: a literal character or a `${name}` placeholder. -/
inductive FTok where
  | litc (c : Char)
  | hole (n : String)
deriving Repr, DecidableEq

/-- The text of one token. -/
def renderTok : FTok → List Char
  | .litc c => [c]
  | .hole n => '$' :: '\x7b' :: (n.data ++ ['\x7d'])

/-- The text of a token list. -/
def render (ts : List FTok) : List Char :=
  ts.flatMap renderTok

/-- A capture-group name of the shape Go accepts never contains `$`, `{`
or `}` and is non-empty.  (Go restricts names to word characters.) -/
def goodNameB (n : String) : Bool :=
  !n.isEmpty && n.data.all (fun c => c ≠ '$' && c ≠ '\x7b' && c ≠ '\x7d')

/-- A captured value that cannot create or destroy placeholder text when
inserted: it contains no `$`. -/
def goodValB (v : String) : Bool :=
  v.data.all (fun c => c ≠ '$')

/-- A token list is benign when literal characters are not `$` and hole
names are of the shape Go accepts. -/
def goodToks (ts : List FTok) : Bool :=
  ts.all (fun tk => match tk with | .litc c => c ≠ '$' | .hole n => goodNameB n)

/-- Replace the holes named `a` by the literal characters of `v`. -/
def substOne (a v : String) (ts : List FTok) : List FTok :=
  ts.flatMap (fun tk =>
    match tk with
    | .hole n => if n = a then v.data.map FTok.litc else [tk]
    | .litc c => [.litc c])

/-- Simultaneously replace every hole by its value under `f` (holes with no
value stay). -/
def substAll (f : String → Option String) (ts : List FTok) : List FTok :=
  ts.flatMap (fun tk =>
    match tk with
    | .hole n =>
      match f n with
      | some v => v.data.map FTok.litc
      | none => [tk]
    | .litc c => [.litc c])

/-- The token-level substitution loop corresponding to `substituteLoop`. -/
def substLoopTok (captures : List (String × String)) (order : List String)
    (ts : List FTok) : List FTok :=
  order.foldl
    (fun acc n =>
      match captures.lookup n with
      | some v => substOne n v acc
      | none => acc)
    ts

/-! ### Concrete instances used as witnesses and counterexamples -/

/-- Placeholder transformer used as the default when extracting a compile
result that is known to be `.ok`. -/
def tDefault : PathTransformer :=
  ⟨⟨[], .eps⟩, ""⟩

/-- Extract the transformer from a compile result known to be `.ok`. -/
def getT (r : Except CompileError PathTransformer) : PathTransformer :=
  (r.toOption).getD tDefault

/-- Format `}${a}${b` (written character-wise). -/
def fmtBraceFirst : String :=
  String.mk ['\x7d', '$', '\x7b', 'a', '\x7d', '$', '\x7b', 'b']

/-- Transformer compiled from pattern `(?P<a>Z)` and format `}${a}${b`. -/
def tBraceFirst : PathTransformer :=
  getT (NewPathTransformer "(?P<a>Z)" fmtBraceFirst)

/-- Transformer compiled from pattern `(?P<a>Z)` and format `${a}_${type}`
(`type` is never declared by the pattern). -/
def tUndeclared : PathTransformer :=
  getT (NewPathTransformer "(?P<a>Z)" "${a}_${type}")

/-- Format `${a}${b` (no closing brace after the `${b`). -/
def fmtOpenEnd : String :=
  String.mk ['$', '\x7b', 'a', '\x7d', '$', '\x7b', 'b']

/-- Transformer compiled from pattern `(?P<a>Z)` and format `${a}${b`. -/
def tOpenEnd : PathTransformer :=
  getT (NewPathTransformer "(?P<a>Z)" fmtOpenEnd)

/-- Transformer whose group `a` can capture placeholder-shaped text:
pattern `(?P<a>[^/]+)/(?P<b>[^/]+)`, format `${a}`. -/
def tCapturePh : PathTransformer :=
  getT (NewPathTransformer "(?P<a>[^/]+)/(?P<b>[^/]+)" "${a}")

/-- Transformer with an optional group: pattern `(?P<a>x)(?P<b>y)?`,
format `${a}-${b}`. -/
def tOptional : PathTransformer :=
  getT (NewPathTransformer "(?P<a>x)(?P<b>y)?" "${a}-${b}")

/-- Benign two-group transformer: pattern `(?P<a>x)-(?P<b>y)`,
format `${a}_${b}`. -/
def tBenign : PathTransformer :=
  getT (NewPathTransformer "(?P<a>x)-(?P<b>y)" "${a}_${b}")

/-- Tokens of the format `${a}_${b}`. -/
def tsBenign : List FTok :=
  [.hole "a", .litc '_', .hole "b"]

/-- Transformer for the caller-loop witness: pattern `(?P<a>Z)`,
format `${a}!`. -/
def tCaller : PathTransformer :=
  getT (NewPathTransformer "(?P<a>Z)" "${a}!")

/-- The pattern of the spec's concrete scenario 4 (also the Go test case
"extract date components"). -/
def c7pat : String :=
  "(?P<month>[^-]+)-(?P<day>[^-]+)-(?P<year>[^-]+)-(?P<hour>[^-]+)-(?P<minute>[^-]+)-(?P<second>[^-]+)-(?P<room>[^/]+)/.*\\.TRANSCRIPT$"

/-- The format of the spec's concrete scenario 4. -/
def c7fmt : String :=
  "${year}-${month}-${day}_${hour}-${minute}.TRANSCRIPT"

/-- The input of the spec's concrete scenario 4. -/
def c7inp : String :=
  "apr-10-2025-17-27-28-AI_TEAM_OFFICE_ROOM-2/audio_transcript.TRANSCRIPT"

/-- The transformer compiled from the scenario-4 pattern and format. -/
def c7t : PathTransformer :=
  getT (NewPathTransformer c7pat c7fmt)

/-- Tokens of the scenario-4 format. -/
def c7ts : List FTok :=
  [.hole "year", .litc '-', .hole "month", .litc '-', .hole "day", .litc '_',
   .hole "hour", .litc '-', .hole "minute",
   .litc '.', .litc 'T', .litc 'R', .litc 'A', .litc 'N', .litc 'S',
   .litc 'C', .litc 'R', .litc 'I', .litc 'P', .litc 'T']

/-- Input `${b}/X`, whose first path segment is placeholder-shaped text
captured by `tCapturePh`'s group `a`. -/
def cexInput : String :=
  String.mk ['$', '\x7b', 'b', '\x7d', '/', 'X']

/-- The submatch list of the scenario-4 pattern on the scenario-4 input. -/
def m7 : List String :=
  [c7inp, "apr", "10", "2025", "17", "27", "28", "AI_TEAM_OFFICE_ROOM-2"]

/-- The captures map of the scenario-4 transform. -/
def caps7 : List (String × String) :=
  [("month", "apr"), ("day", "10"), ("year", "2025"), ("hour", "17"),
   ("minute", "27"), ("second", "28"), ("room", "AI_TEAM_OFFICE_ROOM-2")]

/-- The compiled regex of pattern `(?P<date>x)` (for the compile-validation
witness). -/
def reDate : Regexp :=
  ((regexpCompile "(?P<date>x)").toOption).getD ⟨[], .eps⟩

/-- Files for the caller-loop witness: the first does not match
`tCaller`'s pattern, the second does. -/
def fileA : FileInfo :=
  ⟨"idA", "a", "Q", "text/plain", "2025"⟩

/-- Second caller-loop witness file. -/
def fileB : FileInfo :=
  ⟨"idB", "b", "Z", "text/plain", "2025"⟩

/-! ## Theorems -/

set_option maxRecDepth 100000

/-- Unfolding of `Transform` used throughout. -/
theorem Transform_eq (t : PathTransformer) (order : List String) (x : String) :
    t.Transform order x =
      match t.pattern.FindStringSubmatch x with
      | none => .error (.noMatch x)
      | some m =>
        let result := substituteLoop (buildCaptures t.pattern.SubexpNames m) order t.format
        if stringsContains result "$\x7b" && stringsContains result "\x7d" then
          .error (.unresolvedPlaceholder result)
        else
          .ok result := rfl

/-- C8: compiling with an empty pattern or an empty format always fails
with `InvalidArguments`; since the error is `InvalidArguments` whatever the
other argument is, this check precedes regex compilation and the
`TemplateUnused` check. -/
theorem compile_empty_invalidArguments (p f : String) (h : p = "" ∨ f = "") :
    NewPathTransformer p f = .error .invalidArguments := by
  rcases h with h | h <;> subst h <;> simp [NewPathTransformer]

/-- Witness for C8 at concrete inputs, including a syntactically invalid
pattern together with an empty format. -/
theorem compile_empty_invalidArguments_w :
    NewPathTransformer "" "${date}.txt" = .error .invalidArguments ∧
    NewPathTransformer "(?P<date>[" "" = .error .invalidArguments :=
  ⟨compile_empty_invalidArguments _ _ (.inl rfl),
   compile_empty_invalidArguments _ _ (.inr rfl)⟩

/-- `findSuffix` returns `none` exactly when no start position admits a
match. -/
theorem findSuffix_eq_none_iff (r : RE) (s : List Char) :
    findSuffix r s = none ↔ ∀ i, matchHere r (s.drop i) = none := by
  induction s with
  | nil =>
    constructor
    · intro h i
      rw [List.drop_nil]
      unfold findSuffix at h
      cases hm : matchHere r [] with
      | none => rfl
      | some res => rw [hm] at h; exact absurd h (by simp)
    · intro h
      have h0 := h 0
      rw [List.drop_nil] at h0
      unfold findSuffix
      rw [h0]
  | cons c tl ih =>
    unfold findSuffix
    cases hm : matchHere r (c :: tl) with
    | some res =>
      simp only []
      constructor
      · intro h; exact absurd h (by simp)
      · intro h; exact absurd (h 0) (by simp [hm])
    | none =>
      simp only []
      rw [ih]
      constructor
      · intro h i
        cases i with
        | zero => exact hm
        | succ j => exact h j
      · intro h i
        exact h (i + 1)

/-- C5: `transform` fails with `NoMatch` (carrying the input string) iff
the pattern matches at no start position of the input — the model searches
every position (first-match-anywhere, not anchored), so `NoMatch` means no
position matched. -/
theorem transform_noMatch_iff (t : PathTransformer) (order : List String) (x : String) :
    t.Transform order x = .error (.noMatch x) ↔
      ∀ i, matchHere t.pattern.ast (x.data.drop i) = none := by
  rw [← findSuffix_eq_none_iff]
  have hfind : t.pattern.FindStringSubmatch x = none ↔
      findSuffix t.pattern.ast x.data = none := by
    unfold Regexp.FindStringSubmatch
    cases hf : findSuffix t.pattern.ast x.data <;> simp
  rw [← hfind, Transform_eq]
  cases hm : t.pattern.FindStringSubmatch x with
  | none => simp
  | some m =>
    simp only []
    constructor
    · intro h
      split at h <;> simp_all
    · intro h
      simp at h

/-- C1 counterexample: with pattern `(?P<a>Z)`, format `}${a}${b` and input
`Z`, the substituted result is `}Z${b`, which holds no `${` followed later
by `}` — yet `Transform` fails with `UnresolvedPlaceholder`, because the
code only checks that `${` and `}` occur somewhere. -/
theorem transform_unresolved_claim_cex :
    NewPathTransformer "(?P<a>Z)" fmtBraceFirst = .ok tBraceFirst ∧
    validOrder tBraceFirst "Z" ["a"] ∧
    tBraceFirst.Transform ["a"] "Z" =
      .error (.unresolvedPlaceholder (String.mk ['\x7d', 'Z', '$', '\x7b', 'b'])) ∧
    placeholderShaped (String.mk ['\x7d', 'Z', '$', '\x7b', 'b']).data = false := by
  refine ⟨by decide, ?_, by decide, by decide⟩
  unfold validOrder
  decide

/-- C1 (amended): when the pattern matches, `transform` fails with
`UnresolvedPlaceholder` — carrying the substituted string — iff that string
contains `${` somewhere and `}` somewhere, in any relative order (not
necessarily a `${` later followed by `}`). -/
theorem transform_unresolved_iff (t : PathTransformer) (order : List String)
    (x : String) (m : List String)
    (hm : t.pattern.FindStringSubmatch x = some m) :
    t.Transform order x =
        .error (.unresolvedPlaceholder
          (substituteLoop (buildCaptures t.pattern.SubexpNames m) order t.format)) ↔
      stringsContains
          (substituteLoop (buildCaptures t.pattern.SubexpNames m) order t.format)
          "$\x7b" = true ∧
      stringsContains
          (substituteLoop (buildCaptures t.pattern.SubexpNames m) order t.format)
          "\x7d" = true := by
  rw [Transform_eq, hm]
  simp only []
  cases h1 : stringsContains
      (substituteLoop (buildCaptures t.pattern.SubexpNames m) order t.format) "$\x7b" <;>
    cases h2 : stringsContains
        (substituteLoop (buildCaptures t.pattern.SubexpNames m) order t.format) "\x7d" <;>
    simp

/-- Witness for C1 (amended): `${type}` is never captured, so the
substituted string `Z_${type}` holds both `${` and `}` and `Transform`
fails with `UnresolvedPlaceholder` carrying it. -/
theorem transform_unresolved_iff_w :
    tUndeclared.Transform ["a"] "Z" =
      .error (.unresolvedPlaceholder
        (substituteLoop (buildCaptures tUndeclared.pattern.SubexpNames ["Z", "Z"])
          ["a"] tUndeclared.format)) :=
  (transform_unresolved_iff tUndeclared ["a"] "Z" ["Z", "Z"] (by decide)).mpr
    ⟨by decide, by decide⟩

/-- C10: when the pattern matches and the substituted string contains `${`
but no `}` anywhere, `Transform` returns it as a successful result (a
literal `${` can appear in a successful output); and the
unresolved-placeholder error fires only when `${` and `}` both occur
somewhere in the result. -/
theorem transform_ok_openPlaceholder (t : PathTransformer) (order : List String)
    (x : String) (m : List String)
    (hm : t.pattern.FindStringSubmatch x = some m) :
    (stringsContains
        (substituteLoop (buildCaptures t.pattern.SubexpNames m) order t.format)
        "\x7d" = false →
      t.Transform order x =
        .ok (substituteLoop (buildCaptures t.pattern.SubexpNames m) order t.format)) ∧
    (∀ r, t.Transform order x = .error (.unresolvedPlaceholder r) →
      stringsContains r "$\x7b" = true ∧ stringsContains r "\x7d" = true) := by
  constructor
  · intro h2
    rw [Transform_eq, hm]
    simp [h2]
  · intro r hr
    rw [Transform_eq, hm] at hr
    simp only [] at hr
    split at hr
    · rename_i hcond
      cases hr
      exact And.imp id id (by simpa [Bool.and_eq_true] using hcond)
    · exact absurd hr (by simp)

/-- Witness for C10: with pattern `(?P<a>Z)`, format `${a}${b` and input
`Z`, the substituted string `Z${b` has a `${` and no `}`, and `Transform`
succeeds returning it. -/
theorem transform_ok_openPlaceholder_w :
    tOpenEnd.Transform ["a"] "Z" =
      .ok (substituteLoop (buildCaptures tOpenEnd.pattern.SubexpNames ["Z", "Z"])
        ["a"] tOpenEnd.format) :=
  (transform_ok_openPlaceholder tOpenEnd ["a"] "Z" ["Z", "Z"] (by decide)).1 (by decide)

/-- C9: in the caller's per-file loop, a transform error on one file leaves
that file unchanged, a success replaces only its path, and every file is
processed regardless of errors elsewhere (the output list has the same
length, and each output entry depends only on its own input entry). -/
theorem transformPaths_per_file (t : PathTransformer) (order : List String)
    (files : List FileInfo) (i : Nat) (f : FileInfo)
    (hf : files.get? i = some f) :
    (transformPaths t order files).length = files.length ∧
    (∀ e, t.Transform order f.Path = .error e →
      (transformPaths t order files).get? i = some f) ∧
    (∀ y, t.Transform order f.Path = .ok y →
      (transformPaths t order files).get? i = some { f with Path := y }) := by
  have hmap : (transformPaths t order files).get? i =
      (files.get? i).map (fun g =>
        match t.Transform order g.Path with
        | .ok newPath => { g with Path := newPath }
        | .error _ => g) :=
    List.get?_map _ _ _
  refine ⟨by simp [transformPaths], ?_, ?_⟩
  · intro e he
    rw [hmap, hf]
    simp [he]
  · intro y hy
    rw [hmap, hf]
    simp [hy]

/-- Witness for C9: a two-file list where the first file's path does not
match and stays unchanged, while the second is transformed. -/
theorem transformPaths_per_file_w :
    (transformPaths tCaller ["a"] [fileA, fileB]).get? 0 = some fileA ∧
    (transformPaths tCaller ["a"] [fileA, fileB]).get? 1 =
      some { fileB with Path := "Z!" } :=
  ⟨(transformPaths_per_file tCaller ["a"] [fileA, fileB] 0 fileA (by decide)).2.1
      (.noMatch "Q") (by decide),
   (transformPaths_per_file tCaller ["a"] [fileA, fileB] 1 fileB (by decide)).2.2
      "Z!" (by decide)⟩

/-- `containsSub` decides list-infix containment, i.e. Go
`strings.Contains`. -/
theorem containsSub_iff_infix (s sub : List Char) :
    containsSub s sub = true ↔ sub <:+: s := by
  induction s with
  | nil => simp [containsSub, List.isEmpty_iff, List.infix_nil]
  | cons c tl ih =>
    simp [containsSub, List.infix_cons_iff, ih, List.isPrefixOf_iff_prefix]

/-- The characters of `placeholderOf nm`. -/
theorem placeholderOf_data (nm : String) :
    (placeholderOf nm).data = '$' :: '\x7b' :: (nm.data ++ ['\x7d']) := by
  simp [placeholderOf, String.data_append]

/-- A format containing `${nm}` contains `${`. -/
theorem contains_open_of_contains_placeholder (f nm : String)
    (h : stringsContains f (placeholderOf nm) = true) :
    stringsContains f "$\x7b" = true := by
  rw [stringsContains, containsSub_iff_infix] at h ⊢
  refine List.IsInfix.trans ?_ h
  rw [placeholderOf_data]
  exact (List.cons_prefix_cons.mpr ⟨rfl, List.cons_prefix_cons.mpr
    ⟨rfl, List.nil_prefix⟩⟩).isInfix

/-- C4: for a non-empty pattern that compiles and a non-empty format,
compilation succeeds iff the format contains `${g}` for at least one named
group `g` of the pattern; otherwise — in particular whenever the format has
no `${` at all, even if the pattern declares named groups — it fails with
`TemplateUnused`. -/
theorem compile_templateUnused_iff (p f : String) (re : Regexp)
    (hp : p ≠ "") (hf : f ≠ "") (hc : regexpCompile p = .ok re) :
    (NewPathTransformer p f = .ok ⟨re, f⟩ ↔
      ∃ nm ∈ re.SubexpNames, nm ≠ "" ∧ stringsContains f (placeholderOf nm) = true) ∧
    ((¬ ∃ nm ∈ re.SubexpNames, nm ≠ "" ∧ stringsContains f (placeholderOf nm) = true) →
      NewPathTransformer p f = .error .templateUnused) ∧
    (stringsContains f "$\x7b" = false →
      NewPathTransformer p f = .error .templateUnused) := by
  unfold NewPathTransformer
  rw [if_neg (by simp [hp, hf]), hc]
  simp only []
  cases hA : re.SubexpNames.any
      (fun name => name ≠ "" && stringsContains f (placeholderOf name)) with
  | true =>
    rw [List.any_eq_true] at hA
    obtain ⟨nm, hmem, hcond⟩ := hA
    rw [Bool.and_eq_true, decide_eq_true_eq] at hcond
    refine ⟨by simp; exact ⟨nm, hmem, hcond.1, hcond.2⟩, ?_, ?_⟩
    · intro hno
      exact absurd ⟨nm, hmem, hcond.1, hcond.2⟩ hno
    · intro hopen
      have := contains_open_of_contains_placeholder f nm hcond.2
      rw [hopen] at this
      exact absurd this (by simp)
  | false =>
    refine ⟨?_, fun _ => rfl, fun _ => rfl⟩
    constructor
    · intro h
      exact absurd h (by simp)
    · rintro ⟨nm, hmem, hne, hcont⟩
      have hx : (decide (nm ≠ "") && stringsContains f (placeholderOf nm)) = true := by
        simp [hne, hcont]
      have hT : (re.SubexpNames.any
          (fun name => decide (name ≠ "") && stringsContains f (placeholderOf name))) = true :=
        List.any_eq_true.mpr ⟨nm, hmem, hx⟩
      rw [hA] at hT
      exact absurd hT (by simp)

/-- Witness for C4: `(?P<date>x)` with format `${date}.txt` compiles; with
format `nope.txt` (no placeholder) it fails with `TemplateUnused`. -/
theorem compile_templateUnused_iff_w :
    NewPathTransformer "(?P<date>x)" "${date}.txt" = .ok ⟨reDate, "${date}.txt"⟩ ∧
    NewPathTransformer "(?P<date>x)" "nope.txt" = .error .templateUnused :=
  ⟨(compile_templateUnused_iff "(?P<date>x)" "${date}.txt" reDate
      (by decide) (by decide) (by decide)).1.mpr ⟨"date", by decide, by decide, by decide⟩,
   (compile_templateUnused_iff "(?P<date>x)" "nope.txt" reDate
      (by decide) (by decide) (by decide)).2.2 (by decide)⟩

/-- Looking up the key just inserted. -/
theorem lookup_mapInsert_self (m : List (String × String)) (k v : String) :
    (mapInsert m k v).lookup k = some v := by
  unfold mapInsert
  induction m with
  | nil =>
    show List.lookup k [(k, v)] = some v
    rw [List.lookup_cons]
    simp
  | cons p tl ih =>
    obtain ⟨p1, p2⟩ := p
    rw [List.filter_cons]
    by_cases h : p1 = k
    · rw [if_neg (by simp [h])]
      exact ih
    · rw [if_pos (by simp [h]), List.cons_append, List.lookup_cons]
      have hb : (k == p1) = false := by
        rw [beq_eq_false_iff_ne]
        exact fun e => h e.symm
      rw [hb]
      exact ih

/-- Inserting a different key does not change a lookup. -/
theorem lookup_mapInsert_ne (m : List (String × String)) (k v k' : String)
    (h : k' ≠ k) : (mapInsert m k v).lookup k' = m.lookup k' := by
  unfold mapInsert
  induction m with
  | nil =>
    show List.lookup k' [(k, v)] = List.lookup k' []
    rw [List.lookup_cons]
    rw [beq_eq_false_iff_ne.mpr h]
  | cons p tl ih =>
    obtain ⟨p1, p2⟩ := p
    rw [List.filter_cons]
    by_cases hp : p1 = k
    · rw [if_neg (by simp [hp])]
      rw [ih, List.lookup_cons]
      have hb : (k' == p1) = false := by
        rw [beq_eq_false_iff_ne, hp]
        exact h
      rw [hb]
    · rw [if_pos (by simp [hp]), List.cons_append, List.lookup_cons, List.lookup_cons]
      cases hb : (k' == p1) with
      | true => rfl
      | false => exact ih

/-- If every entry of `L` that assigns `nm` assigns `v`, the
capture-collection fold preserves `lookup nm = some v`. -/
theorem foldl_capStep_preserve (L : List (Nat × String × String))
    (acc : List (String × String)) (nm v : String)
    (hacc : acc.lookup nm = some v)
    (hL : ∀ q ∈ L, q.1 ≠ 0 → q.2.1 = nm → q.2.2 = v) :
    (L.foldl capStep acc).lookup nm = some v := by
  induction L generalizing acc with
  | nil => simpa using hacc
  | cons p L' ih =>
    rw [List.foldl_cons]
    refine ih (capStep acc p) ?_ (fun q hq => hL q (by simp [hq]))
    unfold capStep
    split
    · rename_i hcond
      by_cases hpnm : p.2.1 = nm
      · rw [hpnm, hL p (by simp) hcond.1 hpnm]
        exact lookup_mapInsert_self _ _ _
      · rw [lookup_mapInsert_ne _ _ _ _ (fun h => hpnm h.symm)]
        exact hacc
    · exact hacc

/-- If some entry of `L` assigns `nm` (with nonzero index and `nm ≠ ""`)
and all entries of `L` that assign `nm` assign `v`, then the fold's final
map sends `nm` to `v`. -/
theorem foldl_capStep_lookup (L : List (Nat × String × String))
    (acc : List (String × String)) (nm v : String)
    (hnm : nm ≠ "")
    (hmem : ∃ i, (i, (nm, v)) ∈ L ∧ i ≠ 0)
    (hL : ∀ q ∈ L, q.1 ≠ 0 → q.2.1 = nm → q.2.2 = v) :
    (L.foldl capStep acc).lookup nm = some v := by
  induction L generalizing acc with
  | nil => obtain ⟨i, hi, _⟩ := hmem; exact absurd hi (by simp)
  | cons p L' ih =>
    rw [List.foldl_cons]
    by_cases hp : p.1 ≠ 0 ∧ p.2.1 = nm
    · have hval : p.2.2 = v := hL p (by simp) hp.1 hp.2
      refine foldl_capStep_preserve L' _ nm v ?_ (fun q hq => hL q (by simp [hq]))
      unfold capStep
      rw [if_pos ⟨hp.1, by rw [hp.2]; exact hnm⟩, hp.2, hval]
      exact lookup_mapInsert_self _ _ _
    · obtain ⟨i, hi, hi0⟩ := hmem
      rcases List.mem_cons.mp hi with heq | hmem'
      · rw [← heq] at hp
        exact absurd ⟨hi0, rfl⟩ hp
      · exact ih (capStep acc p) ⟨i, hmem', hi0⟩ (fun q hq => hL q (by simp [hq]))

/-- C6: when the pattern matches but capture group `i` (named `nm`, the
only group with that name) did not participate in the match, the engine
reports its submatch as `""` and the captures map `Transform` builds sends
`nm` to `""` — so `${nm}` is substituted with the empty string instead of
being left to trigger `UnresolvedPlaceholder`. -/
theorem nonparticipating_group_empty (t : PathTransformer) (x : String)
    (suf rem : List Char) (caps : Caps) (i : Nat) (nm : String)
    (hfind : findSuffix t.pattern.ast x.data = some (suf, (rem, caps)))
    (hname : t.pattern.names.get? i = some nm)
    (hi : i ≠ 0) (hnm : nm ≠ "")
    (hpart : caps.lookup i = none)
    (huniq : ∀ j, j < t.pattern.names.length → t.pattern.names.get? j = some nm → j = i) :
    ∃ m, t.pattern.FindStringSubmatch x = some m ∧
      m.get? i = some "" ∧
      (buildCaptures t.pattern.SubexpNames m).lookup nm = some "" := by
  have hFind : t.pattern.FindStringSubmatch x =
      some (String.mk (suf.take (suf.length - rem.length)) ::
        (List.range t.pattern.numGroups).map
          (fun j => String.mk ((caps.lookup (j + 1)).getD []))) := by
    unfold Regexp.FindStringSubmatch
    rw [hfind]
  set M := String.mk (suf.take (suf.length - rem.length)) ::
      (List.range t.pattern.numGroups).map
        (fun j => String.mk ((caps.lookup (j + 1)).getD [])) with hM
  obtain ⟨j, rfl⟩ : ∃ j, i = j + 1 := ⟨i - 1, by omega⟩
  have hlen : j + 1 < t.pattern.names.length := by
    rcases List.get?_eq_some.mp hname with ⟨h, _⟩
    exact h
  have hjn : j < t.pattern.numGroups := by
    unfold Regexp.numGroups
    omega
  have hMi : M.get? (j + 1) = some "" := by
    rw [hM]
    show (((List.range t.pattern.numGroups).map
      (fun j => String.mk ((caps.lookup (j + 1)).getD []))).get? j) = some ""
    rw [List.get?_map, List.get?_range hjn]
    simp [hpart]
  refine ⟨M, hFind, hMi, ?_⟩
  unfold buildCaptures Regexp.SubexpNames
  refine foldl_capStep_lookup _ _ nm "" hnm ⟨j + 1, ?_, by simp⟩ ?_
  · rw [List.mem_enum_iff_get?]
    show (t.pattern.names.zip M).get? (j + 1) = some (nm, "")
    rw [List.get?_eq_getElem?]
    rw [List.getElem?_zip_eq_some]
    constructor
    · rw [← List.get?_eq_getElem?]; exact hname
    · rw [← List.get?_eq_getElem?]; exact hMi
  · rintro ⟨k, qnm, qv⟩ hq hk0 hqnm
    rw [List.mem_enum_iff_get?] at hq
    simp only [] at hq hqnm ⊢
    subst hqnm
    rw [List.get?_eq_getElem?, List.getElem?_zip_eq_some] at hq
    obtain ⟨hq1, hq2⟩ := hq
    have hk : k = j + 1 := by
      refine huniq k ?_ ?_
      · rcases List.getElem?_eq_some.mp hq1 with ⟨h, _⟩
        exact h
      · rw [List.get?_eq_getElem?]; exact hq1
    subst hk
    rw [← List.get?_eq_getElem?, hMi] at hq2
    exact (Option.some.injEq _ _).mp hq2.symm

/-- Witness for C6: with pattern `(?P<a>x)(?P<b>y)?` and input `x`, group
`b` does not participate; its submatch is `""` and the captures map sends
`b` to `""`. -/
theorem nonparticipating_group_empty_w :
    ∃ m, tOptional.pattern.FindStringSubmatch "x" = some m ∧
      m.get? 2 = some "" ∧
      (buildCaptures tOptional.pattern.SubexpNames m).lookup "b" = some "" :=
  nonparticipating_group_empty tOptional "x" ['x'] [] [(1, ['x'])] 2 "b"
    (by decide) (by decide) (by decide) (by decide) (by decide)
    (by decide)

/-! ### Substitution machinery: how `strings.Replace` acts on benign
format strings, for the order-independence analysis -/

/-- `replaceAllF` on the empty string. -/
theorem replaceAllF_nil (fuel : Nat) (old new : List Char) :
    replaceAllF fuel [] old new = [] := by
  cases fuel <;> rfl

/-- `replaceAllF` does not depend on the fuel once it covers the input
length. -/
theorem replaceAllF_congr : ∀ (f1 f2 : Nat) (s old new : List Char),
    s.length ≤ f1 → s.length ≤ f2 →
    replaceAllF f1 s old new = replaceAllF f2 s old new := by
  intro f1
  induction f1 with
  | zero =>
    intro f2 s old new h1 _
    have hs : s = [] := List.length_eq_zero.mp (Nat.le_zero.mp h1)
    subst hs
    rw [replaceAllF_nil, replaceAllF_nil]
  | succ f ih =>
    intro f2 s old new h1 h2
    cases s with
    | nil => rw [replaceAllF_nil, replaceAllF_nil]
    | cons c tl =>
      cases f2 with
      | zero => exact absurd h2 (by simp)
      | succ g =>
        simp only [replaceAllF]
        by_cases hc : old ≠ [] ∧ old.isPrefixOf (c :: tl)
        · rw [if_pos hc, if_pos hc]
          congr 1
          have hod : 0 < old.length := List.length_pos.mpr hc.1
          apply ih
          · simp only [List.length_drop, List.length_cons]
            simp only [List.length_cons] at h1
            omega
          · simp only [List.length_drop, List.length_cons]
            simp only [List.length_cons] at h2
            omega
        · rw [if_neg hc, if_neg hc]
          congr 1
          apply ih
          · simp only [List.length_cons] at h1
            omega
          · simp only [List.length_cons] at h2
            omega

/-- A step of `replaceAll` at a position where the pattern does not
match. -/
theorem replaceAll_cons_nomatch (c : Char) (tl old new : List Char)
    (h : ¬ (old ≠ [] ∧ old.isPrefixOf (c :: tl))) :
    replaceAll (c :: tl) old new = c :: replaceAll tl old new := by
  unfold replaceAll
  simp only [List.length_cons, replaceAllF]
  rw [if_neg h]

/-- A step of `replaceAll` at a position where the pattern matches. -/
theorem replaceAll_matched (old t new : List Char) (h : old ≠ []) :
    replaceAll (old ++ t) old new = new ++ replaceAll t old new := by
  unfold replaceAll
  cases old with
  | nil => exact absurd rfl h
  | cons o old' =>
    rw [List.cons_append]
    simp only [List.length_cons, List.length_append, replaceAllF]
    rw [if_pos ⟨h, List.isPrefixOf_iff_prefix.mpr (by
      rw [← List.cons_append]; exact List.prefix_append _ _)⟩]
    congr 1
    rw [show List.drop (old'.length + 1) (o :: (old' ++ t)) = t from by
      rw [List.drop_succ_cons, List.drop_left]]
    exact replaceAllF_congr _ _ _ _ _ (by simp) (by omega)

/-- `replaceAll` passes over a `$`-free region unchanged when the pattern
starts with `$`. -/
theorem replaceAll_skip_nodollar (x t old new : List Char)
    (hold : old.head? = some '$') (hx : ∀ c ∈ x, c ≠ '$') :
    replaceAll (x ++ t) old new = x ++ replaceAll t old new := by
  induction x with
  | nil => rw [List.nil_append, List.nil_append]
  | cons c x' ih =>
    rw [List.cons_append]
    rw [replaceAll_cons_nomatch]
    · rw [ih (fun d hd => hx d (List.mem_cons_of_mem _ hd)), List.cons_append]
    · rintro ⟨-, hpre⟩
      rw [List.isPrefixOf_iff_prefix] at hpre
      cases old with
      | nil => exact absurd hold (by simp)
      | cons o old' =>
        have ho : o = '$' := by simpa using hold
        rcases List.cons_prefix_cons.mp hpre with ⟨h1, -⟩
        exact hx c (List.mem_cons_self _ _) (by rw [← h1, ho])

/-- A `}`-free name followed by `}` is never a strict-prefix disguise of a
different `}`-free name followed by `}`. -/
theorem not_name_prefix : ∀ (A M t : List Char),
    '\x7d' ∉ A → '\x7d' ∉ M → A ≠ M →
    ¬ (A ++ ['\x7d']) <+: (M ++ '\x7d' :: t) := by
  intro A
  induction A with
  | nil =>
    intro M t _ hM hne hp
    cases M with
    | nil => exact hne rfl
    | cons m0 M' =>
      rw [List.nil_append, List.cons_append] at hp
      rcases List.cons_prefix_cons.mp hp with ⟨h1, -⟩
      exact hM (by rw [← h1]; exact List.mem_cons_self _ _)
  | cons a0 A' ih =>
    intro M t hA hM hne hp
    cases M with
    | nil =>
      rw [List.nil_append, List.cons_append] at hp
      rcases List.cons_prefix_cons.mp hp with ⟨h1, -⟩
      exact hA (by rw [h1]; exact List.mem_cons_self _ _)
    | cons m0 M' =>
      rw [List.cons_append, List.cons_append] at hp
      rcases List.cons_prefix_cons.mp hp with ⟨h1, h2⟩
      refine ih M' t (fun h => hA (List.mem_cons_of_mem _ h))
        (fun h => hM (List.mem_cons_of_mem _ h)) ?_ h2
      intro hAM
      exact hne (by rw [h1, hAM])

/-- Characters of a name of the shape Go accepts. -/
theorem goodNameB_chars (n : String) (h : goodNameB n = true) :
    ∀ c ∈ n.data, c ≠ '$' ∧ c ≠ '\x7b' ∧ c ≠ '\x7d' := by
  unfold goodNameB at h
  rw [Bool.and_eq_true, List.all_eq_true] at h
  intro c hc
  have hx := h.2 c hc
  simp only [Bool.and_eq_true, decide_eq_true_eq] at hx
  exact ⟨hx.1.1, hx.1.2, hx.2⟩

/-- The placeholder of name `a` is not a prefix of the placeholder of a
different name `m` (whatever follows it). -/
theorem pat_not_prefix_hole (a m : String) (t : List Char)
    (hne : m ≠ a) (ha : goodNameB a = true) (hm : goodNameB m = true) :
    ¬ (renderTok (.hole a)).isPrefixOf (renderTok (.hole m) ++ t) := by
  rw [List.isPrefixOf_iff_prefix]
  show ¬ ('$' :: '\x7b' :: (a.data ++ ['\x7d'])) <+:
    (('$' :: '\x7b' :: (m.data ++ ['\x7d'])) ++ t)
  simp only [List.cons_append]
  intro hp
  rcases List.cons_prefix_cons.mp hp with ⟨-, hp2⟩
  rcases List.cons_prefix_cons.mp hp2 with ⟨-, hp3⟩
  rw [List.append_assoc, List.singleton_append] at hp3
  refine not_name_prefix a.data m.data t ?_ ?_ ?_ hp3
  · exact fun hmem => (goodNameB_chars a ha _ hmem).2.2 rfl
  · exact fun hmem => (goodNameB_chars m hm _ hmem).2.2 rfl
  · intro hdata
    exact hne (String.ext (hdata.symm))

/-- `replaceAll` with the placeholder of `a` passes over the placeholder
of a different good name `m` unchanged. -/
theorem replaceAll_skip_hole (a m : String) (t new : List Char)
    (hne : m ≠ a) (ha : goodNameB a = true) (hm : goodNameB m = true) :
    replaceAll (renderTok (.hole m) ++ t) (renderTok (.hole a)) new =
      renderTok (.hole m) ++ replaceAll t (renderTok (.hole a)) new := by
  show replaceAll ('$' :: '\x7b' :: (m.data ++ ['\x7d']) ++ t) _ _ = _
  rw [List.cons_append, List.cons_append]
  rw [replaceAll_cons_nomatch _ _ _ _ (by
    rintro ⟨-, hpre⟩
    exact pat_not_prefix_hole a m t hne ha hm (by
      show (renderTok (.hole a)).isPrefixOf ('$' :: '\x7b' :: (m.data ++ ['\x7d']) ++ t)
      rw [List.cons_append, List.cons_append]
      exact hpre))]
  rw [replaceAll_cons_nomatch _ _ _ _ (by
    rintro ⟨-, hpre⟩
    rw [List.isPrefixOf_iff_prefix] at hpre
    rcases List.cons_prefix_cons.mp hpre with ⟨h1, -⟩
    exact absurd h1 (by decide))]
  rw [List.append_assoc, List.singleton_append]
  rw [replaceAll_skip_nodollar m.data ('\x7d' :: t) (renderTok (.hole a)) new rfl
    (fun c hc => (goodNameB_chars m hm c hc).1)]
  rw [replaceAll_cons_nomatch _ _ _ _ (by
    rintro ⟨-, hpre⟩
    rw [List.isPrefixOf_iff_prefix] at hpre
    rcases List.cons_prefix_cons.mp hpre with ⟨h1, -⟩
    exact absurd h1 (by decide))]
  show _ = '$' :: '\x7b' :: (m.data ++ ['\x7d']) ++ _
  rw [List.cons_append, List.cons_append, List.append_assoc, List.singleton_append]

/-- Rendering a list of literal tokens gives back the characters. -/
theorem render_map_litc (l : List Char) : render (l.map FTok.litc) = l := by
  induction l with
  | nil => rfl
  | cons c l' ih => simp [render, List.flatMap_cons, renderTok] at ih ⊢; exact ih

/-- Rendering distributes over append. -/
theorem render_append (l1 l2 : List FTok) :
    render (l1 ++ l2) = render l1 ++ render l2 := by
  simp [render, List.flatMap_append]

/-- Rendering a cons. -/
theorem render_cons (tk : FTok) (ts : List FTok) :
    render (tk :: ts) = renderTok tk ++ render ts :=
  List.flatMap_cons _ _ _

/-- Rendering a single token. -/
theorem render_singleton (tk : FTok) : render [tk] = renderTok tk := by
  rw [render_cons, show render ([] : List FTok) = [] from rfl, List.append_nil]

/-- `substOne` on a literal token. -/
theorem substOne_cons_litc (a v : String) (c : Char) (ts : List FTok) :
    substOne a v (.litc c :: ts) = .litc c :: substOne a v ts := by
  unfold substOne
  rw [List.flatMap_cons]
  rfl

/-- `substOne` on a hole token. -/
theorem substOne_cons_hole (a v m : String) (ts : List FTok) :
    substOne a v (.hole m :: ts) =
      (if m = a then v.data.map FTok.litc else [.hole m]) ++ substOne a v ts := by
  unfold substOne
  rw [List.flatMap_cons]

/-- `goodToks` decomposition: literal head. -/
theorem goodToks_cons_litc (c : Char) (ts : List FTok)
    (h : goodToks (.litc c :: ts) = true) : c ≠ '$' ∧ goodToks ts = true := by
  unfold goodToks at h ⊢
  rw [List.all_cons, Bool.and_eq_true] at h
  exact ⟨by simpa using h.1, h.2⟩

/-- `goodToks` decomposition: hole head. -/
theorem goodToks_cons_hole (m : String) (ts : List FTok)
    (h : goodToks (.hole m :: ts) = true) : goodNameB m = true ∧ goodToks ts = true := by
  unfold goodToks at h ⊢
  rw [List.all_cons, Bool.and_eq_true] at h
  exact ⟨by simpa using h.1, h.2⟩

/-- The key lemma: on a rendered benign token list, one `strings.Replace`
pass for `${a}` rewrites exactly the `a`-holes, to the verbatim value. -/
theorem replaceAll_render (a v : String) (ts : List FTok)
    (hts : goodToks ts = true) (ha : goodNameB a = true) :
    replaceAll (render ts) (renderTok (.hole a)) v.data =
      render (substOne a v ts) := by
  induction ts with
  | nil => rfl
  | cons tk rest ih =>
    cases tk with
    | litc c =>
      obtain ⟨htk, hrest⟩ := goodToks_cons_litc c rest hts
      rw [render_cons]
      show replaceAll (c :: render rest) _ _ = _
      rw [replaceAll_cons_nomatch _ _ _ _ (by
        rintro ⟨-, hpre⟩
        rw [List.isPrefixOf_iff_prefix] at hpre
        rcases List.cons_prefix_cons.mp hpre with ⟨h1, -⟩
        exact htk (by rw [← h1]))]
      rw [ih hrest, substOne_cons_litc, render_cons]
      rfl
    | hole m =>
      obtain ⟨htk, hrest⟩ := goodToks_cons_hole m rest hts
      rw [render_cons]
      by_cases hm : m = a
      · subst hm
        rw [replaceAll_matched _ _ _ (by simp [renderTok])]
        rw [ih hrest, substOne_cons_hole, if_pos rfl, render_append, render_map_litc]
      · rw [replaceAll_skip_hole a m _ _ hm ha htk]
        rw [ih hrest, substOne_cons_hole, if_neg hm, render_append, render_singleton]

/-- `substOne` with a `$`-free value keeps a token list benign. -/
theorem substOne_goodToks (a v : String) (ts : List FTok)
    (hts : goodToks ts = true) (hv : goodValB v = true) :
    goodToks (substOne a v ts) = true := by
  induction ts with
  | nil => rfl
  | cons tk rest ih =>
    cases tk with
    | litc c =>
      obtain ⟨htk, hrest⟩ := goodToks_cons_litc c rest hts
      rw [substOne_cons_litc]
      unfold goodToks
      rw [List.all_cons, Bool.and_eq_true]
      exact ⟨by simpa using htk, ih hrest⟩
    | hole m =>
      obtain ⟨htk, hrest⟩ := goodToks_cons_hole m rest hts
      rw [substOne_cons_hole]
      unfold goodToks
      rw [List.all_append, Bool.and_eq_true]
      refine ⟨?_, ih hrest⟩
      by_cases hm : m = a
      · rw [if_pos hm, List.all_eq_true]
        intro x hx
        rw [List.mem_map] at hx
        obtain ⟨c, hc, rfl⟩ := hx
        have hvc := List.all_eq_true.mp hv c hc
        simpa using hvc
      · rw [if_neg hm]
        simp only [List.all_cons, List.all_nil, Bool.and_true]
        simpa using htk

/-- A successful lookup comes from an entry of the list. -/
theorem lookup_mem (captures : List (String × String)) (n v : String)
    (h : captures.lookup n = some v) : (n, v) ∈ captures := by
  induction captures with
  | nil => exact absurd h (by simp [List.lookup_nil])
  | cons p tl ih =>
    obtain ⟨p1, p2⟩ := p
    rw [List.lookup_cons] at h
    cases hb : (n == p1) with
    | true =>
      rw [hb] at h
      obtain rfl : p2 = v := by simpa using h
      obtain rfl : n = p1 := beq_iff_eq.mp hb
      exact List.mem_cons_self _ _
    | false =>
      rw [hb] at h
      exact List.mem_cons_of_mem _ (ih h)

/-- A key absent from the key list looks up to `none`. -/
theorem lookup_eq_none_of_not_mem (captures : List (String × String)) (n : String)
    (h : n ∉ captures.map Prod.fst) : captures.lookup n = none := by
  induction captures with
  | nil => rfl
  | cons p tl ih =>
    obtain ⟨p1, p2⟩ := p
    rw [List.map_cons] at h
    rw [List.lookup_cons]
    have h1 : n ≠ p1 := fun e => h (by rw [e]; exact List.mem_cons_self _ _)
    rw [beq_eq_false_iff_ne.mpr h1]
    exact ih (fun hm => h (List.mem_cons_of_mem _ hm))

/-- `substAll` on a literal token. -/
theorem substAll_cons_litc (f : String → Option String) (c : Char) (ts : List FTok) :
    substAll f (.litc c :: ts) = .litc c :: substAll f ts := by
  unfold substAll
  rw [List.flatMap_cons]
  rfl

/-- `substAll` on a hole token. -/
theorem substAll_cons_hole (f : String → Option String) (m : String) (ts : List FTok) :
    substAll f (.hole m :: ts) =
      (match f m with
       | some v => v.data.map FTok.litc
       | none => [.hole m]) ++ substAll f ts := by
  unfold substAll
  rw [List.flatMap_cons]

/-- `substAll` distributes over append. -/
theorem substAll_append (f : String → Option String) (l1 l2 : List FTok) :
    substAll f (l1 ++ l2) = substAll f l1 ++ substAll f l2 := by
  unfold substAll
  rw [List.flatMap_append]

/-- `substAll` only depends on the values of its function. -/
theorem substAll_congr (f g : String → Option String) (ts : List FTok)
    (h : ∀ n, f n = g n) : substAll f ts = substAll g ts := by
  induction ts with
  | nil => rfl
  | cons tk rest ih =>
    cases tk with
    | litc c => rw [substAll_cons_litc, substAll_cons_litc, ih]
    | hole m => rw [substAll_cons_hole, substAll_cons_hole, h m, ih]

/-- Literal tokens are fixed by `substAll`. -/
theorem substAll_litcs (f : String → Option String) (l : List Char) :
    substAll f (l.map FTok.litc) = l.map FTok.litc := by
  induction l with
  | nil => rfl
  | cons c l' ih => rw [List.map_cons, substAll_cons_litc, ih]

/-- The empty substitution is the identity. -/
theorem substAll_none (ts : List FTok) : substAll (fun _ => none) ts = ts := by
  induction ts with
  | nil => rfl
  | cons tk rest ih =>
    cases tk with
    | litc c => rw [substAll_cons_litc, ih]
    | hole m =>
      rw [substAll_cons_hole, ih]
      rfl

/-- Substituting one name first, then the rest simultaneously, is one
bigger simultaneous substitution. -/
theorem substAll_substOne (f : String → Option String) (a v : String) (ts : List FTok) :
    substAll f (substOne a v ts) =
      substAll (fun n => if n = a then some v else f n) ts := by
  induction ts with
  | nil => rfl
  | cons tk rest ih =>
    cases tk with
    | litc c => rw [substOne_cons_litc, substAll_cons_litc, substAll_cons_litc, ih]
    | hole m =>
      rw [substOne_cons_hole]
      by_cases hm : m = a
      · subst hm
        rw [if_pos rfl, substAll_append, substAll_litcs, ih, substAll_cons_hole, if_pos rfl]
      · rw [if_neg hm, List.singleton_append, substAll_cons_hole, ih,
          substAll_cons_hole, if_neg hm]

/-- The token-level substitution loop equals a simultaneous substitution
over the names listed in the order. -/
theorem substLoopTok_eq_substAll (captures : List (String × String)) :
    ∀ (order : List String) (ts : List FTok),
    substLoopTok captures order ts =
      substAll (fun n => if n ∈ order then captures.lookup n else none) ts := by
  intro order
  induction order with
  | nil =>
    intro ts
    show ts = _
    rw [substAll_congr _ (fun _ => none) ts (fun n => by simp), substAll_none]
  | cons n0 order' ih =>
    intro ts
    have hstep : substLoopTok captures (n0 :: order') ts =
        substLoopTok captures order'
          (match captures.lookup n0 with
           | some v => substOne n0 v ts
           | none => ts) := by
      unfold substLoopTok
      rw [List.foldl_cons]
    rw [hstep]
    cases hl : captures.lookup n0 with
    | none =>
      rw [ih ts]
      refine substAll_congr _ _ ts (fun n => ?_)
      by_cases hn : n = n0
      · subst hn
        rw [hl]
        by_cases h' : n ∈ order'
        · rw [if_pos h', if_pos (List.mem_cons_self _ _)]
        · rw [if_neg h', if_pos (List.mem_cons_self _ _)]
      · by_cases h' : n ∈ order'
        · rw [if_pos h', if_pos (List.mem_cons_of_mem _ h')]
        · rw [if_neg h', if_neg (by simp [List.mem_cons, hn, h'])]
    | some v =>
      rw [ih (substOne n0 v ts), substAll_substOne]
      refine substAll_congr _ _ ts (fun n => ?_)
      by_cases hn : n = n0
      · subst hn
        rw [if_pos rfl, if_pos (List.mem_cons_self _ _), hl]
      · rw [if_neg hn]
        by_cases h' : n ∈ order'
        · rw [if_pos h', if_pos (List.mem_cons_of_mem _ h')]
        · rw [if_neg h', if_neg (by simp [List.mem_cons, hn, h'])]

/-- The string-level substitution loop of `Transform`, on a rendered benign
token list, is the token-level loop. -/
theorem substituteLoop_tokens (captures : List (String × String)) :
    ∀ (order : List String) (ts : List FTok),
    goodToks ts = true →
    (∀ n ∈ order, goodNameB n = true) →
    (∀ n v, captures.lookup n = some v → goodValB v = true) →
    substituteLoop captures order (String.mk (render ts)) =
      String.mk (render (substLoopTok captures order ts)) := by
  intro order
  induction order with
  | nil => intro ts _ _ _; rfl
  | cons n0 order' ih =>
    intro ts hts hnames hvals
    have hstep1 : substituteLoop captures (n0 :: order') (String.mk (render ts)) =
        substituteLoop captures order'
          (match captures.lookup n0 with
           | some v => stringsReplace (String.mk (render ts)) (placeholderOf n0) v
           | none => String.mk (render ts)) := by
      unfold substituteLoop
      rw [List.foldl_cons]
    have hstep2 : substLoopTok captures (n0 :: order') ts =
        substLoopTok captures order'
          (match captures.lookup n0 with
           | some v => substOne n0 v ts
           | none => ts) := by
      unfold substLoopTok
      rw [List.foldl_cons]
    rw [hstep1, hstep2]
    cases hl : captures.lookup n0 with
    | none => exact ih ts hts (fun n hn => hnames n (List.mem_cons_of_mem _ hn)) hvals
    | some v =>
      have hrepl : stringsReplace (String.mk (render ts)) (placeholderOf n0) v =
          String.mk (render (substOne n0 v ts)) := by
        unfold stringsReplace
        congr 1
        rw [show (String.mk (render ts)).data = render ts from rfl]
        rw [show (placeholderOf n0).data = renderTok (.hole n0) from by
          rw [placeholderOf_data]; rfl]
        exact replaceAll_render n0 v ts hts (hnames n0 (List.mem_cons_self _ _))
      show substituteLoop captures order'
          (stringsReplace (String.mk (render ts)) (placeholderOf n0) v) =
        String.mk (render (substLoopTok captures order' (substOne n0 v ts)))
      rw [hrepl]
      exact ih (substOne n0 v ts)
        (substOne_goodToks n0 v ts hts (hvals n0 v hl))
        (fun n hn => hnames n (List.mem_cons_of_mem _ hn)) hvals

/-- Main machinery result: on a benign format (literal text plus
placeholders of good names) with `$`-free captured values, the substitution
loop computes the simultaneous substitution of all captured values,
whatever iteration order (any permutation of the capture keys) is used. -/
theorem substituteLoop_order_free (captures : List (String × String))
    (order : List String) (ts : List FTok)
    (hts : goodToks ts = true)
    (hperm : order.Perm (captures.map Prod.fst))
    (hnames : ∀ p ∈ captures, goodNameB p.1 = true)
    (hvals : ∀ p ∈ captures, goodValB p.2 = true) :
    substituteLoop captures order (String.mk (render ts)) =
      String.mk (render (substAll (fun n => captures.lookup n) ts)) := by
  have hnames' : ∀ n ∈ order, goodNameB n = true := by
    intro n hn
    have hmem : n ∈ captures.map Prod.fst := hperm.mem_iff.mp hn
    rw [List.mem_map] at hmem
    obtain ⟨p, hp, rfl⟩ := hmem
    exact hnames p hp
  have hvals' : ∀ n v, captures.lookup n = some v → goodValB v = true := by
    intro n v hl
    exact hvals (n, v) (lookup_mem captures n v hl)
  rw [substituteLoop_tokens captures order ts hts hnames' hvals',
    substLoopTok_eq_substAll]
  congr 1
  refine congrArg render (substAll_congr _ _ ts (fun n => ?_))
  by_cases hn : n ∈ order
  · rw [if_pos hn]
  · rw [if_neg hn]
    symm
    exact lookup_eq_none_of_not_mem captures n (fun hmem => hn (hperm.mem_iff.mpr hmem))

/-- C2 counterexample: `tCapturePh` captures `a = "${b}"`, `b = "X"` on
input `${b}/X`; iterating the captures map as `[a, b]` yields `.ok "X"`
while `[b, a]` yields an `UnresolvedPlaceholder` error — two calls with
identical transformer and input can differ in output and even in error
kind, depending on the (unspecified) map iteration order. -/
theorem transform_order_dependent_cex :
    validOrder tCapturePh cexInput ["a", "b"] ∧
    validOrder tCapturePh cexInput ["b", "a"] ∧
    tCapturePh.Transform ["a", "b"] cexInput = .ok "X" ∧
    tCapturePh.Transform ["b", "a"] cexInput =
      .error (.unresolvedPlaceholder (String.mk ['$', '\x7b', 'b', '\x7d'])) := by
  decide

/-- C2 (amended): when the format is literal text plus placeholders of
well-shaped names and no captured value contains `$`, the result of
`transform` is the same for every iteration order of the captures map — in
particular two calls with identical transformer and input agree.  (Without
these conditions the iteration order can change the result, see the
counterexample.) -/
theorem transform_order_independent (t : PathTransformer) (x : String)
    (m : List String) (ts : List FTok) (o1 o2 : List String)
    (hm : t.pattern.FindStringSubmatch x = some m)
    (hfmt : t.format.data = render ts)
    (hts : goodToks ts = true)
    (hnames : ∀ p ∈ buildCaptures t.pattern.SubexpNames m, goodNameB p.1 = true)
    (hvals : ∀ p ∈ buildCaptures t.pattern.SubexpNames m, goodValB p.2 = true)
    (h1 : validOrder t x o1) (h2 : validOrder t x o2) :
    t.Transform o1 x = t.Transform o2 x := by
  have hfmt' : t.format = String.mk (render ts) := String.ext hfmt
  have hp1 : o1.Perm ((buildCaptures t.pattern.SubexpNames m).map Prod.fst) := by
    have h := h1
    unfold validOrder capturesOf at h
    rw [hm] at h
    simpa only [] using h
  have hp2 : o2.Perm ((buildCaptures t.pattern.SubexpNames m).map Prod.fst) := by
    have h := h2
    unfold validOrder capturesOf at h
    rw [hm] at h
    simpa only [] using h
  have e1 := substituteLoop_order_free (buildCaptures t.pattern.SubexpNames m) o1 ts
    hts hp1 hnames hvals
  have e2 := substituteLoop_order_free (buildCaptures t.pattern.SubexpNames m) o2 ts
    hts hp2 hnames hvals
  rw [Transform_eq, Transform_eq, hm]
  simp only []
  rw [hfmt', e1, e2]

/-- Witness for C2 (amended): the benign transformer gives the same result
under both iteration orders. -/
theorem transform_order_independent_w :
    tBenign.Transform ["a", "b"] "x-y" = tBenign.Transform ["b", "a"] "x-y" :=
  transform_order_independent tBenign "x-y" ["x-y", "x", "y"] tsBenign
    ["a", "b"] ["b", "a"]
    (by decide) (by decide) (by decide) (by decide) (by decide) (by decide) (by decide)

/-- C3 counterexample: on input `${b}/X`, group `a` captures the text
`${b}`, yet with iteration order `[a, b]` the final output is `X` and the
captured value `${b}` appears nowhere in it — the value was re-scanned and
rewritten by the later substitution pass for `b`, contradicting
"inserted verbatim and never re-scanned". -/
theorem transform_verbatim_claim_cex :
    validOrder tCapturePh cexInput ["a", "b"] ∧
    (capturesOf tCapturePh cexInput).lookup "a" =
      some (String.mk ['$', '\x7b', 'b', '\x7d']) ∧
    tCapturePh.Transform ["a", "b"] cexInput = .ok "X" ∧
    stringsContains "X" (String.mk ['$', '\x7b', 'b', '\x7d']) = false := by
  decide

/-- C3 (amended): substitution is literal and single-pass per name, and
when the format is literal text plus placeholders of well-shaped names and
no captured value contains `$`, the loop computes the simultaneous literal
substitution — every `${name}` is replaced by the captured value verbatim
and values are not re-scanned.  (When a captured value itself contains
placeholder-shaped text, a later pass for another name may rewrite it,
depending on the map iteration order; see the counterexample.) -/
theorem transform_literal_substitution (t : PathTransformer) (x : String)
    (m : List String) (ts : List FTok) (o : List String)
    (hm : t.pattern.FindStringSubmatch x = some m)
    (hfmt : t.format.data = render ts)
    (hts : goodToks ts = true)
    (hnames : ∀ p ∈ buildCaptures t.pattern.SubexpNames m, goodNameB p.1 = true)
    (hvals : ∀ p ∈ buildCaptures t.pattern.SubexpNames m, goodValB p.2 = true)
    (ho : validOrder t x o) :
    substituteLoop (buildCaptures t.pattern.SubexpNames m) o t.format =
      String.mk (render (substAll
        (fun n => (buildCaptures t.pattern.SubexpNames m).lookup n) ts)) := by
  have hp : o.Perm ((buildCaptures t.pattern.SubexpNames m).map Prod.fst) := by
    have h := ho
    unfold validOrder capturesOf at h
    rw [hm] at h
    simpa only [] using h
  rw [String.ext hfmt]
  exact substituteLoop_order_free _ o ts hts hp hnames hvals

/-- Witness for C3 (amended) on the benign transformer. -/
theorem transform_literal_substitution_w :
    substituteLoop (buildCaptures tBenign.pattern.SubexpNames ["x-y", "x", "y"])
        ["b", "a"] tBenign.format =
      String.mk (render (substAll
        (fun n => (buildCaptures tBenign.pattern.SubexpNames ["x-y", "x", "y"]).lookup n)
        tsBenign)) :=
  transform_literal_substitution tBenign "x-y" ["x-y", "x", "y"] tsBenign ["b", "a"]
    (by decide) (by decide) (by decide) (by decide) (by decide) (by decide)

/-- C7: the scenario-4 pattern and format compile, and on the scenario-4
input `transform` produces `2025-apr-10_17-27.TRANSCRIPT`, whatever
iteration order of the captures map is used. -/
theorem transform_scenario4 :
    NewPathTransformer c7pat c7fmt = .ok c7t ∧
    ∀ order, validOrder c7t c7inp order →
      c7t.Transform order c7inp = .ok "2025-apr-10_17-27.TRANSCRIPT" := by
  refine ⟨by decide, ?_⟩
  intro order hord
  have hm : c7t.pattern.FindStringSubmatch c7inp = some m7 := by decide
  have hcap : buildCaptures c7t.pattern.SubexpNames m7 = caps7 := by decide
  have hperm : order.Perm (caps7.map Prod.fst) := by
    have h := hord
    unfold validOrder capturesOf at h
    rw [hm] at h
    simp only [] at h
    rwa [hcap] at h
  have hfmt : c7t.format = String.mk (render c7ts) := by decide
  have hloop := substituteLoop_order_free caps7 order c7ts (by decide) hperm
    (by decide) (by decide)
  rw [Transform_eq, hm]
  simp only []
  rw [hcap, hfmt, hloop]
  decide

/-- Witness for C7 at a concrete iteration order. -/
theorem transform_scenario4_w :
    c7t.Transform ["month", "day", "year", "hour", "minute", "second", "room"] c7inp =
      .ok "2025-apr-10_17-27.TRANSCRIPT" :=
  transform_scenario4.2 _ (by decide)

end GDD
